import Mathlib

/-!
Verification of the lsst/log logging facade (C++ sources) against its
natural-language specification.

Shallow embedding conventions:
* a C++ `std::string` is modelled as a `List Char` (`Str`);
* the process-wide default logger is represented by the raw log4cxx name of
  the logger node it references (`"root"` for the root logger), since every
  claim observes the logger only through its name;
* log4cxx, libc and CPython are external collaborators; the few of their
  entry points the claims depend on are modelled by their documented
  contracts, noted at each definition.
-/

namespace LsstLog

/-- Characters of a C++ `std::string`, modelled as a list of characters. -/
abbrev Str := List Char

/-- Raw log4cxx name of the root logger (`log4cxx::Logger::getRootLogger()
returns the logger whose `getName()` is `"root"`). -/
def rootLoggerName : Str := ['r', 'o', 'o', 't']

/-- Test used to model `name.find('.') != std::string::npos` in
`Log::pushContext` (src/unnamed/part_000:280, src/src/Log.cc:333): whether
the string contains the hierarchy separator. -/
def hasDot (s : Str) : Bool := s.any (fun c => c == '.')

/-- Everything before the last `'.'` of the string: models
`s.substr(0, s.find_last_of('.'))`, meaningful when `hasDot s` holds. -/
def dropLastSegment (s : Str) : Str :=
  (((s.reverse).dropWhile (fun c => c != '.')).drop 1).reverse

/-- Name of the parent node in the log4cxx logger hierarchy, as used by
`Log::popContext` (src/unnamed/part_000:303). `none` is the null parent of
the root logger. For a non-root logger the parent is the logger for the name
with the final dot-segment removed (root when the name has no dot): on the
states reachable through `pushContext`, every ancestor level was registered
by an earlier `pushContext`, so log4cxx's nearest-registered-ancestor rule
reduces to dropping the last segment. -/
def getParentName (s : Str) : Option Str :=
  if s = rootLoggerName then none
  else if hasDot s then some (dropLastSegment s) else some rootLoggerName

namespace Log

/-- Validation failures of `Log::pushContext`; both are thrown as
`std::invalid_argument` by the source (src/unnamed/part_000:275-283,
src/src/Log.cc:328-336). -/
inductive PushContextError where
  | emptyName : PushContextError
  | multiLevelName : PushContextError
  deriving DecidableEq, Repr

/-- Embedding of `Log::pushContext(name)` (src/unnamed/part_000:273-295,
src/src/Log.cc:326-348). The first component is the raw name of the default
logger after the call; the second is the exception thrown, if any. The C++
code throws before mutating the default logger, so on error the state is
returned unchanged. On success the new default logger name is
`name` when the old default was root, else `old ++ "." ++ name`. -/
def pushContext (st : Str) (name : Str) : Str × Option PushContextError :=
  if name = [] then (st, some .emptyName)
  else if hasDot name then (st, some .multiLevelName)
  else
    (if st = rootLoggerName then name else st ++ ('.' :: name), none)

/-- Embedding of `Log::popContext()` (src/unnamed/part_000:300-308,
src/src/Log.cc:353-361): move the default logger to its parent; the root
logger has no parent and the default logger then stays at root. -/
def popContext (st : Str) : Str :=
  match getParentName st with
  | none => st
  | some parent => parent

/-- Embedding of `Log::getDefaultLoggerName()`
(src/unnamed/part_000:238-240 with `Log::getName` at 245-251, and
src/src/Log.cc:290-296): the default logger's name, with the raw root name
`"root"` replaced by the empty string. -/
def getDefaultLoggerName (st : Str) : Str :=
  if st = rootLoggerName then [] else st

/-- Embedding of `Log::getLogger(loggername)` (src/unnamed/part_000:261-267,
src/src/Log.cc:314-320): the empty name resolves to the current default
logger, any other name resolves to the logger registered under exactly that
name (`log4cxx::Logger::getLogger(loggername)`, identified by its name). -/
def getLogger (defaultLogger : Str) (loggername : Str) : Str :=
  if loggername = [] then defaultLogger else loggername

/-- Embedding of the `Log::getLogger(Log logger)` overload
(src/src/Log.cc:304-306), which merely returns its argument. -/
def getLoggerPassthrough (logger : Str) : Str := logger

end Log

/-- Balanced sequences of matched `pushContext`/`popContext` pairs.
`push name inner rest` runs `pushContext name`, then the balanced sequence
`inner`, then the matching `popContext`, then the balanced sequence
`rest`. -/
inductive CtxSeq where
  | done : CtxSeq
  | push : Str → CtxSeq → CtxSeq → CtxSeq

/-- Every name pushed by the sequence is a valid single-segment context name:
non-empty and containing no `'.'`. -/
def CtxSeq.valid : CtxSeq → Prop
  | .done => True
  | .push nm inner rest =>
      nm ≠ [] ∧ hasDot nm = false ∧ inner.valid ∧ rest.valid

/-- Run a balanced sequence of context operations against the default-logger
state, single-threaded (no interleaved context operations). Valid pushes
succeed, so the state after a push is the first component of
`Log.pushContext`. -/
def CtxSeq.run : CtxSeq → Str → Str
  | .done, s => s
  | .push nm inner rest, s =>
      rest.run (Log.popContext (inner.run (Log.pushContext s nm).1))

/-- Calls made by the `Log::configure*` entry points into the log4cxx
backend and into the module's own globals, in program order. The backend
calls themselves (parsing, appender wiring) are external collaborators; only
which of them are made, with which argument, and in which order is
modelled. -/
inductive CfgAction where
  /-- Sets the module global `doBasicConfig = false`, cancelling the lazy
  basic-configuration step (src/unnamed/part_000:168,203,223). -/
  | disableBasicConfig : CfgAction
  /-- Calls `log4cxx::BasicConfigurator::resetConfiguration()`. -/
  | resetConfiguration : CfgAction
  /-- Calls `log4cxx::xml::DOMConfigurator::configure(filename)`. -/
  | domConfigure (filename : Str) : CfgAction
  /-- Calls `log4cxx::PropertyConfigurator::configure(filename)`. -/
  | propConfigureFile (filename : Str) : CfgAction
  /-- Loads the in-memory properties text and calls
  `log4cxx::PropertyConfigurator::configure(prop)`. -/
  | propConfigureString (properties : Str) : CfgAction
  /-- Calls `log4cxx::BasicConfigurator::configure()`. -/
  | basicConfigure : CfgAction
  /-- Resets the default logger back to the root logger
  (`_defaultLogger() = log4cxx::Logger::getRootLogger()`). -/
  | setDefaultToRoot : CfgAction
  deriving DecidableEq, Repr

/-- Embedding of `getFileExtension` (src/unnamed/part_000:115-121): the
substring from the last `'.'` to the end, or the empty string when the
filename has no dot. -/
def getFileExtension (filename : Str) : Str :=
  if hasDot filename then
    '.' :: (filename.reverse.takeWhile (fun c => c != '.')).reverse
  else []

/-- The `".xml"` extension selecting XML-style configuration parsing. -/
def xmlExtension : Str := ['.', 'x', 'm', 'l']

/-- Trace of backend calls made by `Log::configure(filename)`
(src/unnamed/part_000:201-213): cancel lazy basic config, reset existing
configuration, dispatch on the `".xml"` suffix, reset default logger to
root. -/
def configureFileTrace (filename : Str) : List CfgAction :=
  [.disableBasicConfig, .resetConfiguration,
    if getFileExtension filename = xmlExtension then .domConfigure filename
    else .propConfigureFile filename,
    .setDefaultToRoot]

/-- Trace of backend calls made by `Log::configure()`
(src/unnamed/part_000:165-189). `env` is the value of `LSST_LOG_CONFIG`
when it names an existing readable file, `rootHasAppenders` whether the
root logger already has appenders. -/
def configureTrace (env : Option Str) (rootHasAppenders : Bool) :
    List CfgAction :=
  [.disableBasicConfig, .resetConfiguration] ++
    match env with
    | some f => configureFileTrace f
    | none =>
        (if rootHasAppenders then [] else [.basicConfigure]) ++
          [.setDefaultToRoot]

/-- Trace of backend calls made by `Log::configure_prop(properties)`
(src/unnamed/part_000:221-233; the variant in src/src/Log.cc:278-285 is the
same minus the `doBasicConfig` global): cancel lazy basic config, parse the
in-memory properties string, reset default logger to root — with no
`resetConfiguration()` call. -/
def configurePropTrace (properties : Str) : List CfgAction :=
  [.disableBasicConfig, .propConfigureString properties, .setDefaultToRoot]

/-- Embedding of the trailing-newline removal applied to layout-rendered
output in `PyLogAppender::append` (src/unnamed/part_014:196-200; the
`msg[msg.size()-1] = '\0'` variant at src/src/PyLogAppender.cc:166-169 cuts
the same character through `c_str()`). -/
def stripTrailingNewline (msg : Str) : Str :=
  if msg.getLast? = some '\n' then msg.dropLast else msg

/-- Message text placed in the forwarded Python log record by
`PyLogAppender::append` (src/unnamed/part_014:192-204,
src/src/PyLogAppender.cc:161-173): when a layout is configured its rendered
output (`some rendered`, a collaborator result) with a trailing newline
removed, otherwise the raw event message. -/
def pyAppendMessage (rendered : Option Str) (rawMessage : Str) : Str :=
  match rendered with
  | some r => stripTrailingNewline r
  | none => rawMessage

/-- Size of the stack buffer used by the printf-style logging calls
(`#define MAX_LOG_MSG_LEN 1024`, src/src/Log.cc:52,
src/unnamed/part_000:56). -/
def MAX_LOG_MSG_LEN : Nat := 1024

/-- Model of libc `vsnprintf(buf, size, fmt, args)` by its documented
contract: at most `size - 1` characters of the full formatted output are
written, followed by a terminating NUL, so the C string left in the buffer
is the `(size - 1)`-truncation of the formatted text. `formatted` stands
for the full output the format string and arguments would produce. -/
def vsnprintfTrunc (size : Nat) (formatted : Str) : Str :=
  formatted.take (size - 1)

/-- Message string forwarded to `forcedLog` by `Log::vlog` / `Log::log`
(src/src/Log.cc:445-457, src/unnamed/part_000:382-392): the formatted
output as truncated into the fixed 1024-byte buffer. -/
def vlogMessage (formatted : Str) : Str :=
  vsnprintfTrunc MAX_LOG_MSG_LEN formatted

/-- Lexicographic byte order on `std::string`, the key order of the
`std::map` used for the bridging appender's logger-name cache. -/
def strLt : Str → Str → Bool
  | [], [] => false
  | [], _ :: _ => true
  | _ :: _, [] => false
  | a :: as, b :: bs =>
      if a.toNat < b.toNat then true
      else if b.toNat < a.toNat then false
      else strLt as bs

/-- Logger-name cache of the bridging appender
(`std::map<std::string, LRUEntry>`, src/unnamed/part_002:93-104), held in
map iteration order (ascending key). Only the `age` field of `LRUEntry` is
modelled; the cached Python logger object does not enter any claim. -/
abbrev LRUCache := List (Str × Nat)

/-- Maximum size of the logger name cache
(src/unnamed/part_014:89, src/src/PyLogAppender.cc:74). -/
def MAX_LRU_CACHE_SIZE : Nat := 32

/-- Embedding of `_cache.emplace(logger_name, LRUEntry({logger, age}))`
(src/unnamed/part_014:154): insert at the key's position when the key is
absent; when the key is already present `emplace` changes nothing (the
existing entry and its age are kept). -/
def cacheEmplace : LRUCache → Str → Nat → LRUCache
  | [], k, v => [(k, v)]
  | (k', v') :: rest, k, v =>
      if k = k' then (k', v') :: rest
      else if strLt k k' then (k, v) :: (k', v') :: rest
      else (k', v') :: cacheEmplace rest k v

/-- Smallest age present in the cache (0 for the empty cache). -/
def minAge : LRUCache → Nat
  | [] => 0
  | e :: rest => rest.foldl (fun m x => min m x.2) e.2

/-- Removes the first entry (in map iteration order) whose age is `a`. -/
def removeFirstWithAge : LRUCache → Nat → LRUCache
  | [], _ => []
  | e :: rest, a =>
      if e.2 = a then rest else e :: removeFirstWithAge rest a

/-- Embedding of `m_cache.erase(std::min_element(...))` with comparator
`lhs.age < rhs.age` (src/unnamed/part_014:156-163,
src/src/PyLogAppender.cc:134-141): `std::min_element` returns the first
iterator attaining the strictly smallest age, i.e. the first entry in map
iteration order whose age equals the minimum. -/
def removeFirstMinAge (c : LRUCache) : LRUCache :=
  removeFirstWithAge c (minAge c)

/-- The eviction loop `while (_cache.size() > MAX_LRU_CACHE_SIZE) erase(...)`
unrolled on explicit fuel; each iteration removes exactly one entry, so
`c.length` iterations always reach the loop's exit condition. -/
def evictLoop : Nat → LRUCache → LRUCache
  | 0, c => c
  | fuel + 1, c =>
      if MAX_LRU_CACHE_SIZE < c.length then
        evictLoop fuel (removeFirstMinAge c)
      else c

/-- The eviction while-loop of `PyLogAppender::append`
(src/unnamed/part_014:155-164, src/src/PyLogAppender.cc:133-142). -/
def evictOversize (c : LRUCache) : LRUCache := evictLoop c.length c

/-- Embedding of the overflow resynchronization
(src/unnamed/part_014:165-172): `for (auto& v : _cache) v.age = _lru_age++`
in map iteration order, starting from the wrapped counter; returns the new
cache and the counter after the loop. -/
def reassignAges : LRUCache → Nat → LRUCache × Nat
  | [], age => ([], age)
  | (k, _) :: rest, age =>
      let r := reassignAges rest (age + 1)
      ((k, age) :: r.1, r.2)

/-- Modulus of the 32-bit `uint32_t _lru_age` counter
(src/unnamed/part_002:103). -/
def UINT32_MOD : Nat := 2 ^ 32

/-- Cache maintenance performed by each successful `PyLogAppender::append`
(src/unnamed/part_014:151-173): emplace under the post-incremented 32-bit
age counter (the increment happens even when the key is already cached,
because the `LRUEntry` argument is evaluated before `emplace`), evict while
over the size bound, and when the counter has wrapped to 0 reassign fresh
distinct ages to all current entries. The variant at
src/src/PyLogAppender.cc:129-143 lacks the wrap-around block. -/
def cacheAppend (c : LRUCache) (lruAge : Nat) (name : Str) :
    LRUCache × Nat :=
  let inserted := cacheEmplace c name lruAge
  let bumped := (lruAge + 1) % UINT32_MOD
  let evicted := evictOversize inserted
  if bumped = 0 then reassignAges evicted 0 else (evicted, bumped)

/-- Run a sequence of appends against the appender's initial state (empty
cache, age counter 0, src/unnamed/part_002:103-104). -/
def cacheRun (names : List Str) : LRUCache × Nat :=
  names.foldl (fun s n => cacheAppend s.1 s.2 n) ([], 0)

/-- Invariant of the appender's cache state: cache entries hold pairwise
distinct ages, every age is below the current counter value, and the
counter is a 32-bit value. -/
def CacheInv (c : LRUCache) (age : Nat) : Prop :=
  c.Pairwise (fun e₁ e₂ => e₁.2 ≠ e₂.2) ∧ (∀ e ∈ c, e.2 < age) ∧
    age < UINT32_MOD

/-- 33 distinct logger names (single characters in ascending key order) for
the bounded-cache scenario of the specification. -/
def lruTestNames : List Str := (List.range 33).map (fun i => [Char.ofNat (65 + i)])

/-- State of the MDC-init machinery (src/unnamed/part_000:124-135 globals).
Threads and callbacks are identified by natural numbers. The modelled
callbacks are the per-thread counter incrementers of the specification's
scenario: `runCount t cb` is the per-thread counter of callback `cb` on
thread `t`, i.e. how many times `cb` has been invoked on `t`. -/
structure MdcState where
  /-- `mdcInitFunctions`: registered callbacks in registration order. -/
  registry : List Nat
  /-- Per-thread one-time flag held via `pthread_getspecific` /
  `pthread_setspecific` on `pthreadKey` (src/unnamed/part_000:129-135). -/
  initDone : Nat → Bool
  /-- Number of times each callback has run on each thread. -/
  runCount : Nat → Nat → Nat
  /-- Threads of the messages forwarded to `forcedLog`, in order. -/
  forwarded : List Nat

/-- Process start: empty registry, no thread initialized, all per-thread
counters zero, nothing forwarded. -/
def initialMdcState : MdcState :=
  ⟨[], fun _ => false, fun _ _ => 0, []⟩

/-- One invocation of callback `cb` on thread `t`: the callback increments
its per-thread counter. -/
def bumpRun (rc : Nat → Nat → Nat) (t cb : Nat) : Nat → Nat → Nat :=
  fun t2 c2 => if t2 = t ∧ c2 = cb then rc t2 c2 + 1 else rc t2 c2

/-- Embedding of `Log::MDCRegisterInit(function)`
(src/unnamed/part_000:330-343), called from thread `t`: the callback is
invoked once immediately on the calling thread and appended to the
registry. The calling thread's one-time flag is NOT set. -/
def MDCRegisterInit (t cb : Nat) (s : MdcState) : MdcState :=
  { s with
      runCount := bumpRun s.runCount t cb,
      registry := s.registry ++ [cb] }

/-- Embedding of `Log::logMsg` (src/unnamed/part_000:412-435) called from
thread `t`: if the thread's one-time flag is unset, set it and run every
registered callback in registration order; then forward the message to the
backend logger. -/
def logMsg (t : Nat) (s : MdcState) : MdcState :=
  if s.initDone t then
    { s with forwarded := s.forwarded ++ [t] }
  else
    { s with
        initDone := fun t2 => if t2 = t then true else s.initDone t2,
        runCount := s.registry.foldl (fun rc cb => bumpRun rc t cb) s.runCount,
        forwarded := s.forwarded ++ [t] }

/-- Run a sequence of `logMsg` calls, identified by their calling threads,
against a state. -/
def execLogs (ts : List Nat) (s : MdcState) : MdcState :=
  ts.foldl (fun s t => logMsg t s) s

/-! Helper lemmas about the context stack. -/

theorem dropWhile_append_of_all {p : Char → Bool} (l₁ l₂ : List Char)
    (h : ∀ a ∈ l₁, p a = true) :
    (l₁ ++ l₂).dropWhile p = l₂.dropWhile p := by
  induction l₁ with
  | nil => rfl
  | cons a l ih =>
      have ha : p a = true := h a (List.mem_cons_self a l)
      simp only [List.cons_append, List.dropWhile_cons, ha, if_true]
      exact ih (fun b hb => h b (List.mem_cons_of_mem a hb))

theorem hasDot_false_iff (s : Str) : hasDot s = false ↔ ∀ c ∈ s, c ≠ '.' := by
  simp [hasDot]

theorem hasDot_append_dot (s nm : Str) : hasDot (s ++ '.' :: nm) = true := by
  simp [hasDot]

theorem append_dot_ne_root (s nm : Str) : s ++ '.' :: nm ≠ rootLoggerName := by
  intro h
  have hd : hasDot (s ++ '.' :: nm) = true := hasDot_append_dot s nm
  rw [h] at hd
  simp [hasDot, rootLoggerName] at hd

theorem dropLastSegment_append (s nm : Str) (hnm : hasDot nm = false) :
    dropLastSegment (s ++ '.' :: nm) = s := by
  have hall : ∀ a ∈ nm.reverse, (a != '.') = true := by
    intro a ha
    have : a ∈ nm := List.mem_reverse.mp ha
    have hne := (hasDot_false_iff nm).mp hnm a this
    simpa using hne
  unfold dropLastSegment
  rw [List.reverse_append, List.reverse_cons]
  rw [List.append_assoc]
  rw [dropWhile_append_of_all _ _ hall]
  simp

/-- Successful push: a valid single-segment name never fails and the new raw
default name is the dot-extension of the old one. -/
theorem pushContext_valid (s nm : Str) (h₁ : nm ≠ []) (h₂ : hasDot nm = false) :
    Log.pushContext s nm =
      (if s = rootLoggerName then nm else s ++ '.' :: nm, none) := by
  unfold Log.pushContext
  rw [if_neg h₁, if_neg (by simp [h₂])]

/-- Popping directly after a valid push restores the raw default name. -/
theorem popContext_pushContext (s nm : Str) (h₁ : nm ≠ [])
    (h₂ : hasDot nm = false) :
    Log.popContext (Log.pushContext s nm).1 = s := by
  rw [pushContext_valid s nm h₁ h₂]
  by_cases hs : s = rootLoggerName
  · subst hs
    rw [if_pos rfl]
    by_cases hroot : nm = rootLoggerName
    · subst hroot; decide
    · have hp : getParentName nm = some rootLoggerName := by
        unfold getParentName
        rw [if_neg hroot, if_neg (by simp [h₂])]
      unfold Log.popContext
      rw [hp]
  · rw [if_neg hs]
    have hp : getParentName (s ++ '.' :: nm) =
        some (dropLastSegment (s ++ '.' :: nm)) := by
      unfold getParentName
      rw [if_neg (append_dot_ne_root s nm), if_pos (hasDot_append_dot s nm)]
    unfold Log.popContext
    rw [hp, dropLastSegment_append s nm h₂]

theorem ctxRun_valid_eq (c : CtxSeq) : ∀ s : Str, c.valid → c.run s = s := by
  induction c with
  | done => intro s _; rfl
  | push nm inner rest ih_inner ih_rest =>
      intro s hv
      obtain ⟨h₁, h₂, hvi, hvr⟩ := hv
      show rest.run (Log.popContext (inner.run (Log.pushContext s nm).1)) = s
      rw [ih_inner _ hvi, popContext_pushContext s nm h₁ h₂, ih_rest _ hvr]

/-! Claim theorems. -/

/-- C1: for every balanced sequence of matched `pushContext`/`popContext`
pairs whose pushed names are valid single-segment names (non-empty, no
`'.'`), executed with no interleaved context operations, the default logger
is restored: its raw name, and therefore the value of
`getDefaultLoggerName()`, after the sequence equal their values before the
sequence. -/
theorem claim_C1_context_nesting_restores_default (c : CtxSeq) (s : Str)
    (hv : c.valid) :
    c.run s = s ∧
      Log.getDefaultLoggerName (c.run s) = Log.getDefaultLoggerName s := by
  have h := ctxRun_valid_eq c s hv
  exact ⟨h, by rw [h]⟩

/-- Witness for C1: the nested sequence push "x"; push "y"; pop; pop applied
at the root state is valid and restores the root default-logger name. -/
theorem claim_C1_witness :
    (CtxSeq.push ['x'] (CtxSeq.push ['y'] .done .done) .done).valid ∧
      (CtxSeq.push ['x'] (CtxSeq.push ['y'] .done .done) .done).run
          rootLoggerName = rootLoggerName ∧
      Log.getDefaultLoggerName
          ((CtxSeq.push ['x'] (CtxSeq.push ['y'] .done .done) .done).run
            rootLoggerName) =
        Log.getDefaultLoggerName rootLoggerName := by
  have hv : (CtxSeq.push ['x'] (CtxSeq.push ['y'] .done .done) .done).valid :=
    ⟨by decide, by decide, ⟨by decide, by decide, trivial, trivial⟩, trivial⟩
  have h := claim_C1_context_nesting_restores_default
    (CtxSeq.push ['x'] (CtxSeq.push ['y'] .done .done) .done) rootLoggerName hv
  exact ⟨hv, h.1, h.2⟩

/-- C3: `pushContext(name)` throws `std::invalid_argument` for the empty name
and for any name containing the `'.'` hierarchy separator, leaving the
default logger name unchanged (the error is surfaced, never silently
ignored), and succeeds for every non-empty single-segment name. -/
theorem claim_C3_pushContext_validation (st nm : Str) :
    (nm = [] → Log.pushContext st nm = (st, some .emptyName)) ∧
      (nm ≠ [] → hasDot nm = true →
        Log.pushContext st nm = (st, some .multiLevelName)) ∧
      (nm ≠ [] → hasDot nm = false → (Log.pushContext st nm).2 = none) := by
  refine ⟨?_, ?_, ?_⟩
  · intro h; subst h; rfl
  · intro h₁ h₂
    unfold Log.pushContext
    rw [if_neg h₁, if_pos h₂]
  · intro h₁ h₂
    rw [pushContext_valid st nm h₁ h₂]

/-- Witness for C3: `pushContext("x.y")` from default logger `"a"` fails with
the multi-level-name invalid-argument error and leaves the state `"a"`; the
same call with `"y"` succeeds. -/
theorem claim_C3_witness :
    (['x', '.', 'y'] : Str) ≠ [] ∧ hasDot ['x', '.', 'y'] = true ∧
      Log.pushContext ['a'] ['x', '.', 'y'] =
        (['a'], some .multiLevelName) ∧
      (Log.pushContext ['a'] ['y']).2 = none := by
  refine ⟨by decide, by decide, ?_, ?_⟩
  · exact (claim_C3_pushContext_validation ['a'] ['x', '.', 'y']).2.1
      (by decide) (by decide)
  · exact (claim_C3_pushContext_validation ['a'] ['y']).2.2
      (by decide) (by decide)

/-- C6: when the default logger is the root logger, `popContext()` is a
no-op: the default logger stays at root and `getDefaultLoggerName()` still
returns the empty string afterwards. -/
theorem claim_C6_popContext_at_root_noop :
    Log.popContext rootLoggerName = rootLoggerName ∧
      Log.getDefaultLoggerName rootLoggerName = [] ∧
      Log.getDefaultLoggerName (Log.popContext rootLoggerName) = [] := by
  refine ⟨?_, by decide, ?_⟩ <;> decide

/-- C9: `getLogger("")` returns the current default logger, whatever
`pushContext`/`popContext` made it (in particular not the root logger once
the default differs from root); `getLogger(name)` for a non-empty name
returns the logger registered under exactly that name; and the
`getLogger(Log)` overload returns its argument unchanged. -/
theorem claim_C9_getLogger_resolution (d nm : Str) :
    (nm = [] → Log.getLogger d nm = d) ∧
      (nm ≠ [] → Log.getLogger d nm = nm) ∧
      Log.getLoggerPassthrough d = d := by
  refine ⟨?_, ?_, rfl⟩
  · intro h; simp [Log.getLogger, h]
  · intro h; simp [Log.getLogger, h]

/-- Witness for C9: with the default logger at `"a.b"`, the empty name
resolves to `"a.b"` (not root) and the name `"c"` resolves to `"c"`. -/
theorem claim_C9_witness :
    Log.getLogger ['a', '.', 'b'] [] = ['a', '.', 'b'] ∧
      (['c'] : Str) ≠ [] ∧ Log.getLogger ['a', '.', 'b'] ['c'] = ['c'] := by
  refine ⟨(claim_C9_getLogger_resolution ['a', '.', 'b'] []).1 rfl, by decide,
    (claim_C9_getLogger_resolution ['a', '.', 'b'] ['c']).2.1 (by decide)⟩

/-! Helper lemmas about the bridging appender's LRU cache. -/

theorem foldl_min_le_init (l : LRUCache) (m : Nat) :
    List.foldl (fun acc x => min acc x.2) m l ≤ m := by
  induction l generalizing m with
  | nil => exact le_refl m
  | cons x xs ih => exact le_trans (ih (min m x.2)) (min_le_left _ _)

theorem foldl_min_attained (l : LRUCache) (m : Nat) :
    List.foldl (fun acc x => min acc x.2) m l = m ∨
      ∃ e ∈ l, List.foldl (fun acc x => min acc x.2) m l = e.2 := by
  induction l generalizing m with
  | nil => exact Or.inl rfl
  | cons x xs ih =>
      rcases ih (min m x.2) with h | ⟨e, he, hh⟩
      · by_cases hmx : m ≤ x.2
        · exact Or.inl (by rw [List.foldl_cons, h]; exact min_eq_left hmx)
        · refine Or.inr ⟨x, List.mem_cons_self x xs, ?_⟩
          rw [List.foldl_cons, h]
          exact min_eq_right (le_of_not_le hmx)
      · exact Or.inr ⟨e, List.mem_cons_of_mem _ he, hh⟩

theorem minAge_attained (c : LRUCache) (hc : c ≠ []) :
    ∃ e ∈ c, e.2 = minAge c := by
  match c with
  | [] => exact absurd rfl hc
  | x :: xs =>
      show ∃ e ∈ x :: xs, e.2 = List.foldl (fun acc y => min acc y.2) x.2 xs
      rcases foldl_min_attained xs x.2 with h | ⟨e, he, hh⟩
      · exact ⟨x, List.mem_cons_self x xs, h.symm⟩
      · exact ⟨e, List.mem_cons_of_mem _ he, hh.symm⟩

theorem removeFirstWithAge_length (c : LRUCache) (a : Nat)
    (h : ∃ e ∈ c, e.2 = a) :
    (removeFirstWithAge c a).length + 1 = c.length := by
  induction c with
  | nil => rcases h with ⟨e, he, _⟩; cases he
  | cons x xs ih =>
      show (if x.2 = a then xs
        else x :: removeFirstWithAge xs a).length + 1 = xs.length + 1
      by_cases hx : x.2 = a
      · rw [if_pos hx]
      · rw [if_neg hx]
        rcases h with ⟨e, he, hea⟩
        rcases List.mem_cons.mp he with rfl | hmem
        · exact absurd hea hx
        · have := ih ⟨e, hmem, hea⟩
          simp only [List.length_cons]
          omega

theorem removeFirstMinAge_length (c : LRUCache) (hc : c ≠ []) :
    (removeFirstMinAge c).length + 1 = c.length :=
  removeFirstWithAge_length c (minAge c) (minAge_attained c hc)

theorem removeFirstWithAge_sublist (c : LRUCache) (a : Nat) :
    (removeFirstWithAge c a).Sublist c := by
  induction c with
  | nil => exact List.Sublist.refl []
  | cons x xs ih =>
      show (if x.2 = a then xs else x :: removeFirstWithAge xs a).Sublist (x :: xs)
      by_cases hx : x.2 = a
      · rw [if_pos hx]; exact List.sublist_cons_self x xs
      · rw [if_neg hx]; exact ih.cons₂ x

theorem evictLoop_sublist (fuel : Nat) (c : LRUCache) :
    (evictLoop fuel c).Sublist c := by
  induction fuel generalizing c with
  | zero => exact List.Sublist.refl c
  | succ n ih =>
      show (if MAX_LRU_CACHE_SIZE < c.length then
        evictLoop n (removeFirstMinAge c) else c).Sublist c
      by_cases h : MAX_LRU_CACHE_SIZE < c.length
      · rw [if_pos h]
        exact (ih (removeFirstMinAge c)).trans
          (removeFirstWithAge_sublist c (minAge c))
      · rw [if_neg h]

theorem evictLoop_length (fuel : Nat) (c : LRUCache)
    (h : c.length ≤ MAX_LRU_CACHE_SIZE + fuel) :
    (evictLoop fuel c).length ≤ MAX_LRU_CACHE_SIZE := by
  induction fuel generalizing c with
  | zero => simpa using h
  | succ n ih =>
      show (if MAX_LRU_CACHE_SIZE < c.length then
        evictLoop n (removeFirstMinAge c) else c).length ≤ MAX_LRU_CACHE_SIZE
      by_cases hlt : MAX_LRU_CACHE_SIZE < c.length
      · rw [if_pos hlt]
        apply ih
        have hc : c ≠ [] := by
          intro hnil
          rw [hnil] at hlt
          simp [MAX_LRU_CACHE_SIZE] at hlt
        have := removeFirstMinAge_length c hc
        omega
      · rw [if_neg hlt]; omega

theorem evictOversize_length (c : LRUCache) :
    (evictOversize c).length ≤ MAX_LRU_CACHE_SIZE :=
  evictLoop_length c.length c (by omega)

theorem evictLoop_of_le (fuel : Nat) (c : LRUCache)
    (h : c.length ≤ MAX_LRU_CACHE_SIZE) : evictLoop fuel c = c := by
  cases fuel with
  | zero => rfl
  | succ n =>
      show (if MAX_LRU_CACHE_SIZE < c.length then
        evictLoop n (removeFirstMinAge c) else c) = c
      rw [if_neg (by omega)]

theorem evictOversize_single_removal (c : LRUCache) (h : c.length = 33) :
    evictOversize c = removeFirstMinAge c := by
  have hc : c ≠ [] := by
    intro hnil; rw [hnil] at h; simp at h
  have hlen : (removeFirstMinAge c).length = 32 := by
    have := removeFirstMinAge_length c hc
    omega
  show evictLoop c.length c = removeFirstMinAge c
  rw [h, show (33 : Nat) = 32 + 1 by norm_num]
  show (if MAX_LRU_CACHE_SIZE < c.length then
    evictLoop 32 (removeFirstMinAge c) else c) = removeFirstMinAge c
  rw [if_pos (by rw [h]; norm_num [MAX_LRU_CACHE_SIZE])]
  exact evictLoop_of_le 32 _ (by rw [hlen]; norm_num [MAX_LRU_CACHE_SIZE])

theorem cacheEmplace_subset (c : LRUCache) (k : Str) (v : Nat) :
    ∀ e ∈ cacheEmplace c k v, e ∈ c ∨ e = (k, v) := by
  induction c with
  | nil =>
      intro e he
      right
      simpa [cacheEmplace] using he
  | cons x xs ih =>
      obtain ⟨k', v'⟩ := x
      intro e he
      rw [show cacheEmplace ((k', v') :: xs) k v =
        if k = k' then (k', v') :: xs
        else if strLt k k' then (k, v) :: (k', v') :: xs
        else (k', v') :: cacheEmplace xs k v from rfl] at he
      by_cases h1 : k = k'
      · rw [if_pos h1] at he
        exact Or.inl he
      · rw [if_neg h1] at he
        by_cases h2 : strLt k k' = true
        · rw [if_pos h2] at he
          rcases List.mem_cons.mp he with rfl | hm
          · exact Or.inr rfl
          · exact Or.inl hm
        · rw [if_neg h2] at he
          rcases List.mem_cons.mp he with rfl | hm
          · exact Or.inl (List.mem_cons_self _ _)
          · rcases ih e hm with h | h
            · exact Or.inl (List.mem_cons_of_mem _ h)
            · exact Or.inr h

theorem cacheEmplace_pairwise (c : LRUCache) (k : Str) (v : Nat)
    (hv : ∀ e ∈ c, e.2 ≠ v)
    (hp : c.Pairwise (fun e₁ e₂ => e₁.2 ≠ e₂.2)) :
    (cacheEmplace c k v).Pairwise (fun e₁ e₂ => e₁.2 ≠ e₂.2) := by
  induction c with
  | nil => simp [cacheEmplace]
  | cons x xs ih =>
      obtain ⟨k', v'⟩ := x
      rw [show cacheEmplace ((k', v') :: xs) k v =
        if k = k' then (k', v') :: xs
        else if strLt k k' then (k, v) :: (k', v') :: xs
        else (k', v') :: cacheEmplace xs k v from rfl]
      by_cases h1 : k = k'
      · rw [if_pos h1]; exact hp
      · rw [if_neg h1]
        rcases List.pairwise_cons.mp hp with ⟨hhead, htail⟩
        by_cases h2 : strLt k k' = true
        · rw [if_pos h2]
          refine List.Pairwise.cons ?_ hp
          intro e he hcontra
          exact hv e he hcontra.symm
        · rw [if_neg h2]
          refine List.Pairwise.cons ?_
            (ih (fun e he => hv e (List.mem_cons_of_mem _ he)) htail)
          intro e he
          rcases cacheEmplace_subset xs k v e he with hm | rfl
          · exact hhead e hm
          · exact hv (k', v') (List.mem_cons_self _ _)

theorem reassignAges_spec (c : LRUCache) (a : Nat) :
    (reassignAges c a).2 = a + c.length ∧
      (reassignAges c a).1.length = c.length ∧
      (∀ e ∈ (reassignAges c a).1, a ≤ e.2 ∧ e.2 < a + c.length) ∧
      (reassignAges c a).1.Pairwise (fun e₁ e₂ => e₁.2 ≠ e₂.2) := by
  induction c generalizing a with
  | nil => simp [reassignAges]
  | cons x xs ih =>
      obtain ⟨k, v⟩ := x
      obtain ⟨h2, hlen, hmem, hpw⟩ := ih (a + 1)
      have hfst : (reassignAges ((k, v) :: xs) a).1 =
          (k, a) :: (reassignAges xs (a + 1)).1 := rfl
      have hsnd : (reassignAges ((k, v) :: xs) a).2 =
          (reassignAges xs (a + 1)).2 := rfl
      refine ⟨?_, ?_, ?_, ?_⟩
      · rw [hsnd, h2]; simp only [List.length_cons]; omega
      · rw [hfst]; simp only [List.length_cons, hlen]
      · intro e he
        rw [hfst] at he
        rcases List.mem_cons.mp he with rfl | hm
        · simp only [List.length_cons]; omega
        · have := hmem e hm
          simp only [List.length_cons]
          omega
      · rw [hfst]
        refine List.Pairwise.cons ?_ hpw
        intro e he
        have := (hmem e he).1
        show a ≠ e.2
        omega

theorem cacheAppend_inv (c : LRUCache) (a : Nat) (n : Str)
    (h : CacheInv c a) :
    CacheInv (cacheAppend c a n).1 (cacheAppend c a n).2 := by
  obtain ⟨hpw, hlt, ha⟩ := h
  have hpos : 0 < UINT32_MOD := by norm_num [UINT32_MOD]
  have hins_pw : (cacheEmplace c n a).Pairwise (fun e₁ e₂ => e₁.2 ≠ e₂.2) :=
    cacheEmplace_pairwise c n a (fun e he => Nat.ne_of_lt (hlt e he)) hpw
  have hins_le : ∀ e ∈ cacheEmplace c n a, e.2 ≤ a := by
    intro e he
    rcases cacheEmplace_subset c n a e he with hm | rfl
    · exact le_of_lt (hlt e hm)
    · exact le_refl a
  have hev_sub : (evictOversize (cacheEmplace c n a)).Sublist (cacheEmplace c n a) :=
    evictLoop_sublist _ _
  have hev_pw := hins_pw.sublist hev_sub
  have hev_le : ∀ e ∈ evictOversize (cacheEmplace c n a), e.2 ≤ a :=
    fun e he => hins_le e (hev_sub.subset he)
  have happ : cacheAppend c a n =
      if (a + 1) % UINT32_MOD = 0 then
        reassignAges (evictOversize (cacheEmplace c n a)) 0
      else (evictOversize (cacheEmplace c n a), (a + 1) % UINT32_MOD) := rfl
  by_cases hw : (a + 1) % UINT32_MOD = 0
  · rw [happ, if_pos hw]
    obtain ⟨h2, hlen, hmem, hrpw⟩ :=
      reassignAges_spec (evictOversize (cacheEmplace c n a)) 0
    refine ⟨hrpw, ?_, ?_⟩
    · intro e he
      rw [h2]
      exact (hmem e he).2
    · rw [h2]
      have hb := evictOversize_length (cacheEmplace c n a)
      have hb32 : (evictOversize (cacheEmplace c n a)).length ≤ 32 := by
        simpa [MAX_LRU_CACHE_SIZE] using hb
      have hM : UINT32_MOD = 4294967296 := by norm_num [UINT32_MOD]
      omega
  · rw [happ, if_neg hw]
    have hmod : (a + 1) % UINT32_MOD = a + 1 := by
      rcases Nat.lt_or_ge (a + 1) UINT32_MOD with hlt' | hge
      · exact Nat.mod_eq_of_lt hlt'
      · have heq : a + 1 = UINT32_MOD := by omega
        rw [heq, Nat.mod_self] at hw
        exact absurd rfl hw
    refine ⟨hev_pw, ?_, ?_⟩
    · intro e he
      have := hev_le e he
      show e.2 < (a + 1) % UINT32_MOD
      omega
    · show (a + 1) % UINT32_MOD < UINT32_MOD
      exact Nat.mod_lt _ hpos

theorem cacheRun_inv (names : List Str) :
    CacheInv (cacheRun names).1 (cacheRun names).2 := by
  suffices h : ∀ s : LRUCache × Nat, CacheInv s.1 s.2 →
      CacheInv (names.foldl (fun s n => cacheAppend s.1 s.2 n) s).1
        (names.foldl (fun s n => cacheAppend s.1 s.2 n) s).2 by
    refine h ([], 0) ⟨List.Pairwise.nil, by simp, by norm_num [UINT32_MOD]⟩
  induction names with
  | nil => intro s hs; exact hs
  | cons n ns ih =>
      intro s hs
      exact ih (cacheAppend s.1 s.2 n) (cacheAppend_inv s.1 s.2 n hs)

set_option maxRecDepth 8000

/-- C4: the bridging appender's cache never exceeds 32 entries after an
append; whenever an insertion makes the size exceed 32, the eviction loop
runs exactly once and removes the first entry (in map iteration order)
holding the smallest age; and inserting 33 distinct logger names starting
from the empty appender leaves exactly the 32 most recent names cached, the
first-inserted (least-recently-touched) name having been evicted. -/
theorem claim_C4_lru_cache_bound (c : LRUCache) (a : Nat) (n : Str) :
    (cacheAppend c a n).1.length ≤ MAX_LRU_CACHE_SIZE ∧
      ((cacheEmplace c n a).length = 33 →
        evictOversize (cacheEmplace c n a) =
          removeFirstMinAge (cacheEmplace c n a)) ∧
      (cacheRun lruTestNames).1.length = 32 ∧
      (cacheRun lruTestNames).1.map Prod.fst = lruTestNames.drop 1 := by
  refine ⟨?_, fun h => evictOversize_single_removal _ h, by decide, by decide⟩
  have happ : cacheAppend c a n =
      if (a + 1) % UINT32_MOD = 0 then
        reassignAges (evictOversize (cacheEmplace c n a)) 0
      else (evictOversize (cacheEmplace c n a), (a + 1) % UINT32_MOD) := rfl
  by_cases hw : (a + 1) % UINT32_MOD = 0
  · rw [happ, if_pos hw]
    have hlen := (reassignAges_spec (evictOversize (cacheEmplace c n a)) 0).2.1
    rw [hlen]
    exact evictOversize_length _
  · rw [happ, if_neg hw]
    exact evictOversize_length _

/-- Witness for C4: inserting one more fresh name into the full 32-entry
cache produced by the 33-name scenario makes the emplace result hold 33
entries, and the eviction step then removes exactly the first minimum-age
entry. -/
theorem claim_C4_witness :
    (cacheEmplace (cacheRun lruTestNames).1 ['z'] 40).length = 33 ∧
      evictOversize (cacheEmplace (cacheRun lruTestNames).1 ['z'] 40) =
        removeFirstMinAge (cacheEmplace (cacheRun lruTestNames).1 ['z'] 40) :=
  ⟨by decide,
    (claim_C4_lru_cache_bound (cacheRun lruTestNames).1 40 ['z']).2.1
      (by decide)⟩

/-- C8: in every state of the bridging appender reachable by a sequence of
appends, no two cache entries hold the same age; a single append preserves
the cache invariant — pairwise distinct ages, all below the 32-bit counter —
including across counter wrap-around, where the ages of all current entries
are reassigned to fresh distinct values; and under that invariant the age a
newly inserted entry receives (the current counter value) is strictly above
every age already in the cache, so it neither collides with nor sorts below
an entry inserted earlier. -/
theorem claim_C8_age_counter (names : List Str) (c : LRUCache) (a : Nat)
    (n : Str) (h : CacheInv c a) :
    (cacheRun names).1.Pairwise (fun e₁ e₂ => e₁.2 ≠ e₂.2) ∧
      CacheInv (cacheAppend c a n).1 (cacheAppend c a n).2 ∧
      (∀ e ∈ c, e.2 < a) :=
  ⟨(cacheRun_inv names).1, cacheAppend_inv c a n h, h.2.1⟩

/-- Witness for C8: the one-entry state with age 0 and counter 1 satisfies
the cache invariant, and appending a fresh name preserves it. -/
theorem claim_C8_witness :
    CacheInv [(['a'], 0)] 1 ∧
      CacheInv (cacheAppend [(['a'], 0)] 1 ['b']).1
        (cacheAppend [(['a'], 0)] 1 ['b']).2 := by
  have h : CacheInv [(['a'], 0)] 1 := by
    refine ⟨List.pairwise_singleton _ _, ?_, by norm_num [UINT32_MOD]⟩
    intro e he
    rw [List.mem_singleton.mp he]
    decide
  exact ⟨h, (claim_C8_age_counter [] [(['a'], 0)] 1 ['b'] h).2.1⟩

/-- Counterexample to C5: `configure()` and `configure(filename)` both call
`resetConfiguration()`, but `configure_prop(properties)` does not, so it
does not perform the same reset of existing backend configuration. -/
theorem claim_C5_counterexample :
    CfgAction.resetConfiguration ∈ configureTrace none true ∧
      CfgAction.resetConfiguration ∈
        configureFileTrace ['a', '.', 'p', 'r', 'o', 'p'] ∧
      CfgAction.resetConfiguration ∉ configurePropTrace ['x'] := by
  refine ⟨by decide, by decide, by decide⟩

/-- C5 (amended): `configure_prop(properties)` cancels the lazy
basic-configuration step, applies properties-style parsing of the in-memory
string, and resets the default logger back to root, in that order; unlike
`configure()` and `configure(filename)` it performs no reset of the existing
backend configuration. -/
theorem claim_C5_configure_prop_trace (properties f : Str)
    (env : Option Str) (b : Bool) :
    configurePropTrace properties =
      [.disableBasicConfig, .propConfigureString properties,
        .setDefaultToRoot] ∧
      CfgAction.resetConfiguration ∉ configurePropTrace properties ∧
      CfgAction.resetConfiguration ∈ configureTrace env b ∧
      CfgAction.resetConfiguration ∈ configureFileTrace f := by
  refine ⟨rfl, ?_, ?_, ?_⟩
  · simp [configurePropTrace]
  · cases env <;> simp [configureTrace, configureFileTrace]
  · simp [configureFileTrace]

/-- C7: with a layout configured, the message text placed in the forwarded
Python record is exactly the layout-rendered output with a final `'\n'`, if
present, removed (appending the newline back recovers the rendered output
unchanged, so nothing else is altered); with no layout it is the raw event
message. -/
theorem claim_C7_py_message_text (r raw : Str) :
    pyAppendMessage none raw = raw ∧
      (r.getLast? = some '\n' → pyAppendMessage (some r) raw ++ ['\n'] = r) ∧
      (r.getLast? ≠ some '\n' → pyAppendMessage (some r) raw = r) := by
  refine ⟨rfl, ?_, ?_⟩
  · intro h
    have hne : r ≠ [] := by
      intro hnil; subst hnil; simp at h
    have hlast : r.getLast hne = '\n' := by
      have := List.getLast?_eq_getLast r hne
      rw [this] at h
      exact (Option.some.inj h.symm).symm
    show stripTrailingNewline r ++ ['\n'] = r
    unfold stripTrailingNewline
    rw [if_pos h, ← hlast]
    exact List.dropLast_append_getLast hne
  · intro h
    show stripTrailingNewline r = r
    unfold stripTrailingNewline
    rw [if_neg h]

/-- Witness for C7: rendered output `"m\n"` is forwarded as `"m"`, and
rendered output `"m"` is forwarded unchanged. -/
theorem claim_C7_witness :
    (['m', '\n'] : Str).getLast? = some '\n' ∧
      pyAppendMessage (some ['m', '\n']) ['r'] ++ ['\n'] = ['m', '\n'] ∧
      (['m'] : Str).getLast? ≠ some '\n' ∧
      pyAppendMessage (some ['m']) ['r'] = ['m'] := by
  refine ⟨by decide, (claim_C7_py_message_text ['m', '\n'] ['r']).2.1
    (by decide), by decide,
    (claim_C7_py_message_text ['m'] ['r']).2.2 (by decide)⟩

/-- C10: every printf-style logging call formats into the fixed 1024-byte
buffer, so the message forwarded to the backend is at most 1023 characters,
is a prefix of the full formatted output (truncation, no overflow or other
alteration), and equals the full output whenever that output fits. -/
theorem claim_C10_vlog_truncation (formatted : Str) :
    (vlogMessage formatted).length ≤ 1023 ∧
      vlogMessage formatted <+: formatted ∧
      (formatted.length ≤ 1023 → vlogMessage formatted = formatted) := by
  refine ⟨?_, ?_, ?_⟩
  · show (formatted.take (MAX_LOG_MSG_LEN - 1)).length ≤ 1023
    rw [List.length_take]
    exact le_trans (min_le_left _ _) (by norm_num [MAX_LOG_MSG_LEN])
  · exact List.take_prefix _ _
  · intro h
    show formatted.take (MAX_LOG_MSG_LEN - 1) = formatted
    exact List.take_of_length_le (by simpa [MAX_LOG_MSG_LEN] using h)

/-- Witness for C10: a one-character formatted output fits in the buffer and
is forwarded whole. -/
theorem claim_C10_witness :
    (['a'] : Str).length ≤ 1023 ∧ vlogMessage ['a'] = ['a'] :=
  ⟨by decide, (claim_C10_vlog_truncation ['a']).2.2 (by decide)⟩

/-! Helper lemmas about the MDC-init registry. -/

theorem foldl_bumpRun_eval (cs : List Nat) (rc : Nat → Nat → Nat)
    (t t2 c2 : Nat) :
    (cs.foldl (fun rc cb => bumpRun rc t cb) rc) t2 c2 =
      rc t2 c2 + (if t2 = t then cs.count c2 else 0) := by
  induction cs generalizing rc with
  | nil => simp
  | cons c cs ih =>
      rw [List.foldl_cons, ih]
      show (if t2 = t ∧ c2 = c then rc t2 c2 + 1 else rc t2 c2) +
          (if t2 = t then cs.count c2 else 0) =
        rc t2 c2 + (if t2 = t then (c :: cs).count c2 else 0)
      by_cases ht : t2 = t
      · by_cases hc : c2 = c
        · rw [if_pos ⟨ht, hc⟩, if_pos ht, if_pos ht, List.count_cons,
            if_pos (by simp [hc])]
          omega
        · rw [if_neg (fun hh => hc hh.2), if_pos ht, if_pos ht,
            List.count_cons]
          have hcc : (c == c2) = false :=
            beq_eq_false_iff_ne.mpr (fun hh => hc hh.symm)
          rw [hcc]
          simp
      · rw [if_neg (fun hh => ht hh.1), if_neg ht, if_neg ht]

theorem logMsg_registry (t : Nat) (s : MdcState) :
    (logMsg t s).registry = s.registry := by
  unfold logMsg
  split <;> rfl

theorem logMsg_initDone (t t2 : Nat) (s : MdcState) :
    (logMsg t s).initDone t2 = (s.initDone t2 || decide (t2 = t)) := by
  unfold logMsg
  by_cases h : s.initDone t
  · rw [if_pos h]
    by_cases h2 : t2 = t
    · subst h2; simp [h]
    · simp [h2]
  · rw [if_neg h]
    show (if t2 = t then true else s.initDone t2) = _
    by_cases h2 : t2 = t
    · simp [h2]
    · simp [h2]

theorem logMsg_runCount (t t2 c2 : Nat) (s : MdcState) :
    (logMsg t s).runCount t2 c2 =
      s.runCount t2 c2 +
        (if s.initDone t = false ∧ t2 = t then s.registry.count c2
         else 0) := by
  unfold logMsg
  by_cases h : s.initDone t
  · rw [if_pos h]
    simp [h]
  · rw [if_neg h]
    show (s.registry.foldl (fun rc cb => bumpRun rc t cb) s.runCount) t2 c2 = _
    rw [foldl_bumpRun_eval]
    simp [h]

theorem execLogs_runCount (ts : List Nat) (s : MdcState) (t c : Nat) :
    (execLogs ts s).runCount t c =
      s.runCount t c +
        (if s.initDone t = false ∧ t ∈ ts then s.registry.count c
         else 0) := by
  induction ts generalizing s with
  | nil => simp [execLogs]
  | cons t1 ts1 ih =>
      rw [show execLogs (t1 :: ts1) s = execLogs ts1 (logMsg t1 s) from rfl,
        ih, logMsg_runCount, logMsg_initDone, logMsg_registry]
      by_cases h1 : t = t1
      · subst h1
        by_cases hd : s.initDone t
        · simp [hd]
        · simp [hd]
      · by_cases hd : s.initDone t
        · simp [h1, hd]
        · simp [h1, hd, List.mem_cons]

/-- Counterexample to C2: with a single registered counter-incrementing
callback, the registering thread's counter is 2, not 1, after its first
subsequent log call — `MDCRegisterInit` runs the callback immediately but
does not set the calling thread's one-time flag, so the thread's first
`logMsg` runs it again. -/
theorem claim_C2_counterexample :
    (execLogs [0] (MDCRegisterInit 0 0 initialMdcState)).runCount 0 0 = 2 ∧
      ¬ (execLogs [0] (MDCRegisterInit 0 0 initialMdcState)).runCount 0 0
          = 1 := by
  constructor <;> decide

/-- C2 (amended): after registering one counter-incrementing callback from
thread `t0` and then any sequence of log calls, a callback's per-thread
count is exactly (1 if the thread registered it) + (1 if the thread logged):
each registered callback runs once at a thread's first `logMsg` (before
that message is forwarded) and is never rerun by later log calls, and it
additionally runs once at registration time on the registering thread —
whose flag registration does not set, so a registering thread that logs
afterwards ends with count 2, the behaviour the code's own documentation
describes as "may be called more than once per thread"; every other logging
thread ends with count exactly 1. -/
theorem claim_C2_mdc_init_runs (t0 cb : Nat) (ts : List Nat) (t : Nat) :
    (execLogs ts (MDCRegisterInit t0 cb initialMdcState)).runCount t cb =
        (if t = t0 then 1 else 0) + (if t ∈ ts then 1 else 0) ∧
      (t ∈ ts → t ≠ t0 →
        (execLogs ts (MDCRegisterInit t0 cb initialMdcState)).runCount t cb
          = 1) ∧
      (t ∈ ts → t = t0 →
        (execLogs ts (MDCRegisterInit t0 cb initialMdcState)).runCount t cb
          = 2) := by
  have hbase : (MDCRegisterInit t0 cb initialMdcState).runCount t cb =
      if t = t0 then 1 else 0 := by
    show bumpRun (fun _ _ => 0) t0 cb t cb = _
    unfold bumpRun
    by_cases h : t = t0
    · rw [if_pos ⟨h, rfl⟩, if_pos h]
    · rw [if_neg (fun hh => h hh.1), if_neg h]
  have hmain := execLogs_runCount ts (MDCRegisterInit t0 cb initialMdcState)
    t cb
  rw [hbase] at hmain
  have hreg : (MDCRegisterInit t0 cb initialMdcState).registry = [cb] := rfl
  have hflag : (MDCRegisterInit t0 cb initialMdcState).initDone t = false :=
    rfl
  rw [hreg, hflag] at hmain
  have hcnt : List.count cb [cb] = 1 := by simp
  rw [hcnt] at hmain
  simp only [eq_self_iff_true, true_and] at hmain
  refine ⟨hmain, ?_, ?_⟩
  · intro hmem hne
    rw [hmain, if_pos hmem, if_neg hne]
  · intro hmem heq
    rw [hmain, if_pos hmem, if_pos heq]

/-- Witness for C2 (amended): thread 1, distinct from the registering thread
0, logs once and its counter ends at exactly 1. -/
theorem claim_C2_witness :
    (1 : Nat) ∈ [1] ∧ (1 : Nat) ≠ 0 ∧
      (execLogs [1] (MDCRegisterInit 0 0 initialMdcState)).runCount 1 0
        = 1 :=
  ⟨by decide, by decide,
    (claim_C2_mdc_init_runs 0 0 [1] 1).2.1 (by decide) (by decide)⟩

end LsstLog
